import Mathlib

/-!
Verification of the graph analyzer in `src/main.py` of
`react-chart-flow-server`.

The analyzer (`check_is_dag_raw`) receives a raw node list and edge list,
collects the truthy node ids into a set, builds an adjacency dict keyed by
those ids, appends the target of each valid edge to the successor list of its source,
and runs a three-color depth-first traversal to decide acyclicity.

The embedding below mirrors the Python code:
  * reading a possibly-missing record field with `.get` yields an `Option String`;
  * Python truthiness of such a value (`None` and `""` are falsy) is `truthy`;
  * the adjacency dict is an association list built exactly as the Python
    code builds it (fresh empty lists for each id, then one append per
    valid edge);
  * the color dict is a partial map `String → Option Color`; reading a
    missing key is `none`, which models a Python `KeyError` and makes the
    traversal return `none` instead of a result;
  * the recursion of `has_cycle` is driven by a fuel parameter; the top
    level supplies `ids.length + 1`, which is proved sufficient, so the
    fuel never changes the observable result;
  * the iteration order of a Python set is not specified, so the embedding
    iterates the deduplicated id list; order independence of the result is
    proved separately.
-/

namespace PipelineServer

/-- Colors of the three-color traversal; the Python code uses the integers
`WHITE, GRAY, BLACK = 0, 1, 2`. -/
inductive Color where
  | WHITE : Color
  | GRAY : Color
  | BLACK : Color
deriving DecidableEq

/-- The mutable dict `color` of the Python code: a partial map from node
ids to colors.  A key that was never inserted reads as `none`. -/
def ColorMap : Type := String → Option Color

/-- Dict assignment `color[v] = x` (inserts the key if absent, as in
Python). -/
def updateColor (c : ColorMap) (v : String) (x : Color) : ColorMap :=
  fun w => if w = v then some x else c w

/-- A raw node record; `id` is the result of `node.get("id")`.  Other
fields of the record are ignored by the analyzer. -/
structure NodeRec where
  id : Option String
deriving DecidableEq

/-- A raw edge record; `source` and `target` are the results of
`edge.get("source")` and `edge.get("target")`. -/
structure EdgeRec where
  source : Option String
  target : Option String
deriving DecidableEq

/-- Python truthiness of a `.get` result: `None` and the empty string are
falsy, every other string is truthy. -/
def truthy : Option String → Bool
  | none => false
  | some s => !s.isEmpty

/-- The id-set comprehension over the node records (keep each id that is
present and truthy):
deduplicated list of truthy node ids. -/
def node_ids (nodes : List NodeRec) : List String :=
  (nodes.filterMap (fun n => if truthy n.id then n.id else none)).dedup

/-- `graph = {}; for node_id in node_ids: graph[node_id] = []` — the
adjacency dict with every valid id bound to a fresh empty list. -/
def emptyAdj (ids : List String) : List (String × List String) :=
  ids.map (fun i => (i, []))

/-- `graph[s].append(t)` on the association-list dict: the successor list
stored under the key `s` grows by `t`; every other entry is unchanged. -/
def appendEdge : List (String × List String) → String → String →
    List (String × List String)
  | [], _, _ => []
  | (k, l) :: rest, s, t =>
    if k = s then (k, l ++ [t]) :: appendEdge rest s t
    else (k, l) :: appendEdge rest s t

/-- The edge loop of `check_is_dag_raw`: for each edge take
`source`/`target`, and when both are truthy and both are keys of `graph`,
append the target to the successor list of the source. -/
def addEdges (graph : List (String × List String)) :
    List EdgeRec → List (String × List String)
  | [] => graph
  | e :: rest =>
    match e.source, e.target with
    | some s, some t =>
      if !s.isEmpty && !t.isEmpty
          && (List.lookup s graph).isSome && (List.lookup t graph).isSome
      then addEdges (appendEdge graph s t) rest
      else addEdges graph rest
    | _, _ => addEdges graph rest

/-- The validity test the edge loop applies to one edge record, phrased
against the key set `ids` of the dict: returns the `(source, target)` pair
when the edge is kept, `none` when it is dropped. -/
def edgeValid (ids : List String) (e : EdgeRec) : Option (String × String) :=
  match e.source, e.target with
  | some s, some t =>
    if !s.isEmpty && !t.isEmpty && ids.contains s && ids.contains t
    then some (s, t) else none
  | _, _ => none

/-- The valid `(source, target)` pairs of the input, in edge-list order. -/
def validPairs (ids : List String) (edges : List EdgeRec) :
    List (String × String) :=
  edges.filterMap (edgeValid ids)

/-- The successor list that ends up stored under key `v`: the targets of
the valid edges whose source is `v`, in edge-list order. -/
def adjTargets (ids : List String) (edges : List EdgeRec) (v : String) :
    List String :=
  ((validPairs ids edges).filter (fun p => p.1 == v)).map Prod.snd

/-- The inner `for neighbor in graph[node]` loop of `has_cycle`.  `hc` is
the recursive call at one fuel unit less.  A `none` color read is a
`KeyError`. -/
def visitNeighbors (hc : ColorMap → String → Option (Bool × ColorMap))
    (color : ColorMap) (node : String) :
    List String → Option (Bool × ColorMap)
  | [] => some (false, updateColor color node Color.BLACK)
  | neighbor :: rest =>
    match color neighbor with
    | none => none
    | some Color.GRAY => some (true, color)
    | some Color.WHITE =>
      match hc color neighbor with
      | none => none
      | some (true, color2) => some (true, color2)
      | some (false, color2) => visitNeighbors hc color2 node rest
    | some Color.BLACK => visitNeighbors hc color node rest

/-- `has_cycle(node)`: mark the node gray, visit its successor list, mark
it black when no cycle was found.  The fuel bounds the recursion depth; a
missing `graph` key is a `KeyError`, returned as `none`. -/
def has_cycle (g : String → Option (List String)) :
    Nat → ColorMap → String → Option (Bool × ColorMap)
  | 0, _, _ => none
  | fuel + 1, color, node =>
    match g node with
    | none => none
    | some neighbors =>
      visitNeighbors (has_cycle g fuel)
        (updateColor color node Color.GRAY) node neighbors

/-- `for node_id in node_ids: if color[node_id] == WHITE: if
has_cycle(node_id): return False` followed by `return True`. -/
def outerLoop (g : String → Option (List String)) (fuel : Nat) :
    ColorMap → List String → Option Bool
  | _, [] => some true
  | color, node_id :: rest =>
    match color node_id with
    | none => none
    | some Color.WHITE =>
      match has_cycle g fuel color node_id with
      | none => none
      | some (true, _) => some false
      | some (false, color2) => outerLoop g fuel color2 rest
    | some Color.GRAY => outerLoop g fuel color rest
    | some Color.BLACK => outerLoop g fuel color rest

/-- The traversal part of `check_is_dag_raw`: build the id set, the
adjacency dict and the all-white color dict, then run the outer loop over
the valid ids. -/
def run_dfs (nodes : List NodeRec) (edges : List EdgeRec) : Option Bool :=
  let ids := node_ids nodes
  let graph := addEdges (emptyAdj ids) edges
  let color : ColorMap :=
    fun v => if ids.contains v then some Color.WHITE else none
  outerLoop (fun v => List.lookup v graph) (ids.length + 1) color ids

/-- `check_is_dag_raw(nodes, edges)`: `if not edges: return True`, else
run the traversal.  `none` models an uncaught Python exception. -/
def check_is_dag_raw (nodes : List NodeRec) (edges : List EdgeRec) :
    Option Bool :=
  if edges.isEmpty then some true else run_dfs nodes edges

/-- The same analyzer without the empty-edge-list short-circuit: the
general three-color traversal run unconditionally.  Used to state the
refinement claim that the short-circuit is observably equivalent. -/
def check_is_dag_general (nodes : List NodeRec) (edges : List EdgeRec) :
    Option Bool :=
  run_dfs nodes edges

/-- The edge relation of the analyzed graph: `u → v` when `(u, v)` is a
valid pair (source and target present, truthy, and both in the valid id
set). -/
def EdgeOf (nodes : List NodeRec) (edges : List EdgeRec)
    (u v : String) : Prop :=
  (u, v) ∈ validPairs (node_ids nodes) edges

/-- The successor relation read off an adjacency function. -/
def succRel (g : String → Option (List String)) (u v : String) : Prop :=
  ∃ l, g u = some l ∧ v ∈ l

/-- The request body after JSON decode: `raw_data.get("nodes", [])` and
`raw_data.get("edges", [])` default missing keys to the empty list. -/
structure RawBody where
  nodes : Option (List NodeRec)
  edges : Option (List EdgeRec)

def RawBody.nodesList (b : RawBody) : List NodeRec := b.nodes.getD []

def RawBody.edgesList (b : RawBody) : List EdgeRec := b.edges.getD []

/-- The analysis result dict `{"num_nodes": ..., "num_edges": ...,
"is_dag": ...}`.  `is_dag` is an `Option Bool` because the traversal is
modelled with explicit `KeyError` propagation. -/
structure PipelineAnalysis where
  num_nodes : Nat
  num_edges : Nat
  is_dag : Bool

/-- What the `parse_pipeline` handler returns to the framework: either the
result dict, or — from the `except` branch — the two-element tuple
`({"error": str(e)}, 400)`. -/
inductive Response where
  | result : PipelineAnalysis → Response
  | errorTuple : String → Nat → Response

/-- `parse_pipeline`: decode the body (a `none` body models
`request.json()` raising), extract `nodes`/`edges` with empty-list
defaults, compute the stats, and return the result dict; any exception is
caught and turned into the tuple `({"error": ...}, 400)`. -/
def parse_pipeline (body : Option RawBody) : Response :=
  match body with
  | none => Response.errorTuple "json decode error" 400
  | some b =>
    match check_is_dag_raw b.nodesList b.edgesList with
    | some is_dag =>
      Response.result
        { num_nodes := b.nodesList.length
          num_edges := b.edgesList.length
          is_dag := is_dag }
    | none => Response.errorTuple "internal error" 400

/-- Modelled from the spec: the transport layer (FastAPI, outside `src/`)
serializes any plain value returned by a route handler — including the
two-element tuple returned by the `except` branch — as the JSON body of a
response with status 200; only a dedicated response object carries a
different status (spec §6 and §9 describe the tuple returned by the
reference handler as a malformed 200-equivalent success response). -/
def httpStatus (r : Response) : Nat :=
  match r with
  | Response.result _ => 200
  | Response.errorTuple _ _ => 200

def Response.numNodes : Response → Option Nat
  | Response.result r => some r.num_nodes
  | Response.errorTuple _ _ => none

def Response.numEdges : Response → Option Nat
  | Response.result r => some r.num_edges
  | Response.errorTuple _ _ => none

def Response.isDag : Response → Option Bool
  | Response.result r => some r.is_dag
  | Response.errorTuple _ _ => none

/-! ### Basic lemmas about the dict embeddings -/

theorem updateColor_same (c : ColorMap) (v : String) (x : Color) :
    updateColor c v x v = some x := by
  simp [updateColor]

theorem updateColor_other (c : ColorMap) (v : String) (x : Color)
    {w : String} (h : w ≠ v) : updateColor c v x w = c w := by
  simp [updateColor, h]

/-- Number of white entries of a color map, measured over the id list. -/
def countWhite (ids : List String) (c : ColorMap) : Nat :=
  (ids.filter (fun v => decide (c v = some Color.WHITE))).length

theorem countWhite_le (ids : List String) (c : ColorMap) :
    countWhite ids c ≤ ids.length :=
  List.length_filter_le _ _

theorem countWhite_mono {c c' : ColorMap}
    (h : ∀ v, c' v = some Color.WHITE → c v = some Color.WHITE) :
    ∀ ids : List String, countWhite ids c' ≤ countWhite ids c := by
  intro ids
  induction ids with
  | nil => simp [countWhite]
  | cons i rest ih =>
    simp only [countWhite, List.filter_cons]
    by_cases hw : c' i = some Color.WHITE
    · have : c i = some Color.WHITE := h i hw
      simp [hw, this]
      exact ih
    · by_cases hw2 : c i = some Color.WHITE
      · simp [hw, hw2]
        exact Nat.le_succ_of_le ih
      · simp [hw, hw2]
        exact ih

theorem countWhite_lt {c c' : ColorMap} {node : String}
    (hsub : ∀ v, c' v = some Color.WHITE → c v = some Color.WHITE)
    (hold : c node = some Color.WHITE) (hnew : c' node ≠ some Color.WHITE) :
    ∀ ids : List String, node ∈ ids → countWhite ids c' < countWhite ids c := by
  intro ids
  induction ids with
  | nil => intro h; cases h
  | cons i rest ih =>
    intro hmem
    simp only [countWhite, List.filter_cons]
    rcases List.mem_cons.mp hmem with rfl | hmem
    · simp [hold, hnew]
      exact Nat.lt_succ_of_le (countWhite_mono hsub rest)
    · by_cases hw : c' i = some Color.WHITE
      · have : c i = some Color.WHITE := hsub i hw
        simp [hw, this]
        exact ih hmem
      · by_cases hw2 : c i = some Color.WHITE
        · simp [hw, hw2]
          exact Nat.lt_succ_of_le (Nat.le_of_lt (ih hmem))
        · simp [hw, hw2]
          exact ih hmem

theorem lookup_emptyAdj (ids : List String) (v : String) :
    List.lookup v (emptyAdj ids) = if v ∈ ids then some [] else none := by
  induction ids with
  | nil => simp [emptyAdj, List.lookup]
  | cons i rest ih =>
    simp only [emptyAdj, List.map_cons, List.lookup]
    by_cases h : v = i
    · subst h
      simp [List.mem_cons]
    · have hbeq : (v == i) = false := beq_false_of_ne h
      simp only [hbeq]
      rw [show (emptyAdj rest = rest.map (fun i => (i, []))) from rfl] at ih
      rw [ih]
      simp [List.mem_cons, h]

theorem lookup_appendEdge (graph : List (String × List String))
    (s t v : String) :
    List.lookup v (appendEdge graph s t) =
      if v = s then (List.lookup v graph).map (fun l => l ++ [t])
      else List.lookup v graph := by
  induction graph with
  | nil => simp [appendEdge, List.lookup]
  | cons p rest ih =>
    obtain ⟨k, l⟩ := p
    by_cases hk : k = s
    · subst hk
      by_cases hv : v = k
      · subst hv
        simp [appendEdge, List.lookup]
      · have hbeq : (v == k) = false := beq_false_of_ne hv
        simp [appendEdge, List.lookup, hbeq, hv, ih]
    · by_cases hv : v = k
      · subst hv
        simp [appendEdge, List.lookup, hk]
      · have hbeq : (v == k) = false := beq_false_of_ne hv
        simp [appendEdge, List.lookup, hk, hbeq, ih]

theorem lookup_isSome_appendEdge (graph : List (String × List String))
    (s t w : String) :
    (List.lookup w (appendEdge graph s t)).isSome =
      (List.lookup w graph).isSome := by
  rw [lookup_appendEdge]
  by_cases h : w = s
  · simp [h]
  · simp [h]

theorem adjTargets_cons_valid {ids : List String} {e : EdgeRec} {s t : String}
    (h : edgeValid ids e = some (s, t)) (rest : List EdgeRec) (v : String) :
    adjTargets ids (e :: rest) v =
      if s = v then t :: adjTargets ids rest v else adjTargets ids rest v := by
  simp only [adjTargets, validPairs, List.filterMap_cons, h]
  by_cases hv : s = v
  · subst hv
    simp [List.filter_cons]
  · have hbeq : ((s, t).1 == v) = false := beq_false_of_ne hv
    simp [List.filter_cons, hbeq, hv]

theorem adjTargets_cons_invalid {ids : List String} {e : EdgeRec}
    (h : edgeValid ids e = none) (rest : List EdgeRec) (v : String) :
    adjTargets ids (e :: rest) v = adjTargets ids rest v := by
  simp [adjTargets, validPairs, List.filterMap_cons, h]

theorem lookup_addEdges (ids : List String) (edges : List EdgeRec) :
    ∀ graph : List (String × List String),
      (∀ w, (List.lookup w graph).isSome = ids.contains w) →
      ∀ v, List.lookup v (addEdges graph edges) =
        (List.lookup v graph).map (fun l => l ++ adjTargets ids edges v) := by
  induction edges with
  | nil =>
    intro graph _ v
    cases h : List.lookup v graph <;>
      simp [addEdges, adjTargets, validPairs, h]
  | cons e rest ih =>
    intro graph hk v
    cases hs : e.source with
    | none =>
      have hev : edgeValid ids e = none := by simp [edgeValid, hs]
      have hstep : addEdges graph (e :: rest) = addEdges graph rest := by
        simp [addEdges, hs]
      rw [hstep, ih graph hk v, adjTargets_cons_invalid hev]
    | some s =>
      cases ht : e.target with
      | none =>
        have hev : edgeValid ids e = none := by simp [edgeValid, hs, ht]
        have hstep : addEdges graph (e :: rest) = addEdges graph rest := by
          simp [addEdges, hs, ht]
        rw [hstep, ih graph hk v, adjTargets_cons_invalid hev]
      | some t =>
        by_cases hcond :
            (!s.isEmpty && !t.isEmpty && ids.contains s && ids.contains t) = true
        · have hev : edgeValid ids e = some (s, t) := by
            simp only [edgeValid, hs, ht]
            rw [if_pos hcond]
          have hcond' : (!s.isEmpty && !t.isEmpty
              && (List.lookup s graph).isSome
              && (List.lookup t graph).isSome) = true := by
            rw [hk s, hk t]; exact hcond
          have hstep : addEdges graph (e :: rest) =
              addEdges (appendEdge graph s t) rest := by
            simp [addEdges, hs, ht, hcond']
          have hk2 : ∀ w, (List.lookup w (appendEdge graph s t)).isSome
              = ids.contains w := by
            intro w; rw [lookup_isSome_appendEdge, hk]
          rw [hstep, ih (appendEdge graph s t) hk2 v, lookup_appendEdge,
            adjTargets_cons_valid hev rest v]
          by_cases hv : v = s
          · subst hv
            cases h : List.lookup v graph <;> simp [h]
          · have hv' : ¬ s = v := fun h => hv h.symm
            cases h : List.lookup v graph <;> simp [h, hv, hv']
        · have hcfalse :
              (!s.isEmpty && !t.isEmpty && ids.contains s && ids.contains t)
                = false := by
            revert hcond
            cases (!s.isEmpty && !t.isEmpty && ids.contains s && ids.contains t) <;>
              simp
          have hev : edgeValid ids e = none := by
            simp only [edgeValid, hs, ht]
            rw [if_neg hcond]
          have hcond' : (!s.isEmpty && !t.isEmpty
              && (List.lookup s graph).isSome
              && (List.lookup t graph).isSome) = false := by
            rw [hk s, hk t]; exact hcfalse
          have hstep : addEdges graph (e :: rest) = addEdges graph rest := by
            simp [addEdges, hs, ht, hcond']
          rw [hstep, ih graph hk v, adjTargets_cons_invalid hev]

theorem lookup_graph (ids : List String) (edges : List EdgeRec) (v : String) :
    List.lookup v (addEdges (emptyAdj ids) edges) =
      if v ∈ ids then some (adjTargets ids edges v) else none := by
  have hk : ∀ w, (List.lookup w (emptyAdj ids)).isSome = ids.contains w := by
    intro w
    rw [lookup_emptyAdj]
    by_cases h : w ∈ ids <;> simp [h]
  rw [lookup_addEdges ids edges (emptyAdj ids) hk v, lookup_emptyAdj]
  by_cases h : v ∈ ids <;> simp [h]

theorem edgeValid_eq_some {ids : List String} {e : EdgeRec} {u v : String} :
    edgeValid ids e = some (u, v) ↔
      e.source = some u ∧ e.target = some v ∧ u.isEmpty = false ∧
        v.isEmpty = false ∧ u ∈ ids ∧ v ∈ ids := by
  cases hs : e.source with
  | none => simp [edgeValid, hs]
  | some s =>
    cases ht : e.target with
    | none => simp [edgeValid, hs, ht]
    | some t =>
      simp only [edgeValid, hs, ht, Option.ite_none_right_eq_some,
        Option.some.injEq, Prod.mk.injEq, Bool.and_eq_true, Bool.not_eq_true',
        List.elem_iff]
      constructor
      · rintro ⟨⟨⟨⟨hse, hte⟩, hsm⟩, htm⟩, rfl, rfl⟩
        exact ⟨rfl, rfl, hse, hte, hsm, htm⟩
      · rintro ⟨h1, h2, hse, hte, hsm, htm⟩
        cases h1; cases h2
        exact ⟨⟨⟨⟨hse, hte⟩, hsm⟩, htm⟩, rfl, rfl⟩

theorem validPairs_mem_ids {ids : List String} {edges : List EdgeRec}
    {u v : String} (h : (u, v) ∈ validPairs ids edges) :
    u ∈ ids ∧ v ∈ ids := by
  obtain ⟨e, _, hev⟩ := List.mem_filterMap.mp h
  obtain ⟨-, -, -, -, hu, hv⟩ := edgeValid_eq_some.mp hev
  exact ⟨hu, hv⟩

theorem mem_adjTargets {ids : List String} {edges : List EdgeRec}
    {u v : String} :
    v ∈ adjTargets ids edges u ↔ (u, v) ∈ validPairs ids edges := by
  simp only [adjTargets, List.mem_map, List.mem_filter, beq_iff_eq]
  constructor
  · rintro ⟨⟨a, b⟩, ⟨hm, rfl⟩, rfl⟩
    exact hm
  · intro hm
    exact ⟨(u, v), ⟨hm, rfl⟩, rfl⟩

/-- The adjacency function obtained by looking up the built dict. -/
def graphFun (ids : List String) (edges : List EdgeRec) :
    String → Option (List String) :=
  fun v => List.lookup v (addEdges (emptyAdj ids) edges)

theorem graphFun_eq (ids : List String) (edges : List EdgeRec) (v : String) :
    graphFun ids edges v =
      if v ∈ ids then some (adjTargets ids edges v) else none :=
  lookup_graph ids edges v

theorem graphFun_isSome (ids : List String) (edges : List EdgeRec)
    (v : String) : (graphFun ids edges v).isSome = true ↔ v ∈ ids := by
  rw [graphFun_eq]
  by_cases h : v ∈ ids <;> simp [h]

theorem succRel_graphFun (ids : List String) (edges : List EdgeRec)
    (u v : String) :
    succRel (graphFun ids edges) u v ↔ (u, v) ∈ validPairs ids edges := by
  constructor
  · rintro ⟨l, hl, hv⟩
    rw [graphFun_eq] at hl
    by_cases hu : u ∈ ids
    · rw [if_pos hu] at hl
      cases Option.some.inj hl
      exact mem_adjTargets.mp hv
    · rw [if_neg hu] at hl
      cases hl
  · intro hm
    have hu : u ∈ ids := (validPairs_mem_ids hm).1
    refine ⟨adjTargets ids edges u, ?_, mem_adjTargets.mpr hm⟩
    rw [graphFun_eq, if_pos hu]

theorem node_ids_nodup (nodes : List NodeRec) : (node_ids nodes).Nodup :=
  List.nodup_dedup _

theorem mem_node_ids {nodes : List NodeRec} {s : String} :
    s ∈ node_ids nodes ↔
      s.isEmpty = false ∧ ∃ n ∈ nodes, n.id = some s := by
  simp only [node_ids, List.mem_dedup, List.mem_filterMap]
  constructor
  · rintro ⟨n, hn, hf⟩
    by_cases ht : truthy n.id = true
    · rw [if_pos ht] at hf
      rw [hf] at ht
      simp only [truthy, Bool.not_eq_true'] at ht
      exact ⟨ht, n, hn, hf⟩
    · rw [if_neg ht] at hf
      cases hf
  · rintro ⟨hs, n, hn, hid⟩
    refine ⟨n, hn, ?_⟩
    have ht : truthy n.id = true := by
      rw [hid]; simp [truthy, hs]
    rw [if_pos ht, hid]

/-! ### Generic facts about transitive closures used by the DFS proof -/

theorem reflTransGen_black {g : String → Option (List String)}
    {c : ColorMap}
    (hclosed : ∀ u v, c u = some Color.BLACK → succRel g u v →
      c v = some Color.BLACK)
    {a b : String} (hab : Relation.ReflTransGen (succRel g) a b)
    (ha : c a = some Color.BLACK) : c b = some Color.BLACK := by
  induction hab with
  | refl => exact ha
  | tail _ hstep ih => exact hclosed _ _ ih hstep

theorem transGen_empty_rel {α : Type} {r : α → α → Prop}
    (hr : ∀ a b, ¬ r a b) {a b : α} (h : Relation.TransGen r a b) : False := by
  induction h with
  | single hstep => exact hr _ _ hstep
  | tail _ hstep _ => exact hr _ _ hstep

/-! ### Shape of one `has_cycle` call

`HcShape c c' node b` records how a call `has_cycle(node)` that returned
`b` transformed the color dict from `c` to `c'`: colors only move forward
(whites shrink), nodes other than `node` that were not white keep their
color, `node` itself ends gray on a cycle report and black otherwise, the
key set grows by at most `node`, and a `False` return creates no new gray
node. -/
def HcShape (c c' : ColorMap) (node : String) (b : Bool) : Prop :=
  (∀ v, c' v = some Color.WHITE → c v = some Color.WHITE) ∧
  (∀ v, v ≠ node → c v ≠ some Color.WHITE → c' v = c v) ∧
  (b = true → c' node = some Color.GRAY) ∧
  (b = false → c' node = some Color.BLACK) ∧
  (∀ v, (c' v).isSome ↔ ((c v).isSome ∨ v = node)) ∧
  (b = false → ∀ v, v ≠ node → c' v = some Color.GRAY → c v = some Color.GRAY)

/-- Same bookkeeping for the inner neighbor loop, which starts with
`node` already gray. -/
def LoopShape (c c' : ColorMap) (node : String) (b : Bool) : Prop :=
  (∀ v, c' v = some Color.WHITE → c v = some Color.WHITE) ∧
  (∀ v, v ≠ node → c v ≠ some Color.WHITE → c' v = c v) ∧
  (b = true → c' node = some Color.GRAY) ∧
  (b = false → c' node = some Color.BLACK) ∧
  (∀ v, (c' v).isSome ↔ (c v).isSome) ∧
  (b = false → ∀ v, v ≠ node → c' v = some Color.GRAY → c v = some Color.GRAY)

theorem visitNeighbors_shape {g : String → Option (List String)} {f : Nat}
    (Hih : ∀ c node b c', has_cycle g f c node = some (b, c') →
      HcShape c c' node b) :
    ∀ (rest : List String) (c : ColorMap) (node : String) (b : Bool)
      (c' : ColorMap),
      visitNeighbors (has_cycle g f) c node rest = some (b, c') →
      c node = some Color.GRAY →
      LoopShape c c' node b := by
  intro rest
  induction rest with
  | nil =>
    intro c node b c' h hgray
    simp only [visitNeighbors, Option.some.injEq, Prod.mk.injEq] at h
    obtain ⟨hb, hc⟩ := h
    subst hb; subst hc
    refine ⟨?_, ?_, ?_, ?_, ?_, ?_⟩
    · intro v hv
      by_cases hvn : v = node
      · subst hvn
        rw [updateColor_same] at hv
        cases hv
      · rwa [updateColor_other _ _ _ hvn] at hv
    · intro v hvn _
      exact updateColor_other _ _ _ hvn
    · intro h; cases h
    · intro _; exact updateColor_same _ _ _
    · intro v
      by_cases hvn : v = node
      · subst hvn
        rw [updateColor_same, hgray]; simp
      · rw [updateColor_other _ _ _ hvn]
    · intro _ v hvn hv
      rwa [updateColor_other _ _ _ hvn] at hv
  | cons neighbor rest ihrest =>
    intro c node b c' h hgray
    cases hcn : c neighbor with
    | none =>
      rw [visitNeighbors, hcn] at h
      cases h
    | some col =>
      cases col with
      | GRAY =>
        rw [visitNeighbors, hcn] at h
        simp only [Option.some.injEq, Prod.mk.injEq] at h
        obtain ⟨hb, hc⟩ := h
        subst hb; subst hc
        refine ⟨fun v hv => hv, fun v _ _ => rfl, fun _ => hgray, ?_,
          fun v => Iff.rfl, ?_⟩
        · intro hfalse; exact Bool.noConfusion hfalse
        · intro hfalse; exact Bool.noConfusion hfalse
      | BLACK =>
        rw [visitNeighbors, hcn] at h
        exact ihrest c node b c' h hgray
      | WHITE =>
        have hnn : node ≠ neighbor := by
          intro hEq
          rw [hEq, hcn] at hgray
          cases hgray
        cases hrec : has_cycle g f c neighbor with
        | none =>
          rw [visitNeighbors, hcn, hrec] at h
          cases h
        | some r =>
          obtain ⟨b2, c2⟩ := r
          obtain ⟨S1, S2, S3, S4, S5, S6⟩ := Hih c neighbor b2 c2 hrec
          cases b2 with
          | true =>
            rw [visitNeighbors, hcn, hrec] at h
            simp only [Option.some.injEq, Prod.mk.injEq] at h
            obtain ⟨hb, hc⟩ := h
            subst hb; subst hc
            refine ⟨S1, ?_, ?_, ?_, ?_, ?_⟩
            · intro v hvn hvw
              have hvne : v ≠ neighbor := by
                intro hEq; rw [hEq] at hvw; exact hvw hcn
              exact S2 v hvne hvw
            · intro _
              have hnode : c2 node = c node := S2 node hnn (by rw [hgray]; simp)
              rw [hnode, hgray]
            · intro hfalse; exact Bool.noConfusion hfalse
            · intro v
              rw [S5 v]
              constructor
              · rintro (h1 | rfl)
                · exact h1
                · rw [hcn]; simp
              · exact Or.inl
            · intro hfalse; exact Bool.noConfusion hfalse
          | false =>
            rw [visitNeighbors, hcn, hrec] at h
            have hc2gray : c2 node = some Color.GRAY := by
              have : c2 node = c node := S2 node hnn (by rw [hgray]; simp)
              rw [this, hgray]
            obtain ⟨L1, L2, L3, L4, L5, L6⟩ :=
              ihrest c2 node b c' h hc2gray
            refine ⟨?_, ?_, L3, L4, ?_, ?_⟩
            · intro v hv
              exact S1 v (L1 v hv)
            · intro v hvn hvw
              have hvne : v ≠ neighbor := by
                intro hEq; rw [hEq, hcn] at hvw; exact hvw rfl
              have h2 : c2 v = c v := S2 v hvne hvw
              rw [L2 v hvn (h2 ▸ hvw), h2]
            · intro v
              rw [L5 v, S5 v]
              constructor
              · rintro (h | rfl)
                · exact h
                · rw [hcn]; simp
              · exact Or.inl
            · intro hb v hvn hv
              have h2 : c2 v = some Color.GRAY := L6 hb v hvn hv
              have hvne : v ≠ neighbor := by
                intro hEq
                rw [hEq] at h2
                rw [S4 rfl] at h2
                cases h2
              exact S6 rfl v hvne h2

theorem has_cycle_shape {g : String → Option (List String)} :
    ∀ (fuel : Nat) (c : ColorMap) (node : String) (b : Bool) (c' : ColorMap),
      has_cycle g fuel c node = some (b, c') → HcShape c c' node b := by
  intro fuel
  induction fuel with
  | zero =>
    intro c node b c' h
    cases h
  | succ f ih =>
    intro c node b c' h
    cases hg : g node with
    | none =>
      rw [has_cycle, hg] at h
      cases h
    | some neighbors =>
      rw [has_cycle, hg] at h
      have hgray : updateColor c node Color.GRAY node = some Color.GRAY :=
        updateColor_same _ _ _
      obtain ⟨L1, L2, L3, L4, L5, L6⟩ :=
        visitNeighbors_shape (fun c n b c' hcall => ih c n b c' hcall)
          neighbors (updateColor c node Color.GRAY) node b c' h hgray
      refine ⟨?_, ?_, L3, L4, ?_, ?_⟩
      · intro v hv
        have h1 := L1 v hv
        by_cases hvn : v = node
        · subst hvn
          rw [updateColor_same] at h1
          cases h1
        · rwa [updateColor_other _ _ _ hvn] at h1
      · intro v hvn hvw
        rw [L2 v hvn (by rwa [updateColor_other _ _ _ hvn]),
          updateColor_other _ _ _ hvn]
      · intro v
        rw [L5 v]
        by_cases hvn : v = node
        · subst hvn
          rw [updateColor_same]
          simp
        · rw [updateColor_other _ _ _ hvn]
          simp [hvn]
      · intro hb v hvn hv
        have := L6 hb v hvn hv
        rwa [updateColor_other _ _ _ hvn] at this

/-! ### The traversal is total: enough fuel and intact keys give a result -/

/-- The color dict has exactly the valid ids as keys. -/
def Dom (ids : List String) (c : ColorMap) : Prop :=
  ∀ v, (c v).isSome = true ↔ v ∈ ids

theorem countWhite_pos {ids : List String} {c : ColorMap} {node : String}
    (hmem : node ∈ ids) (hwhite : c node = some Color.WHITE) :
    0 < countWhite ids c := by
  induction ids with
  | nil => cases hmem
  | cons i rest ih =>
    rcases List.mem_cons.mp hmem with rfl | hmem
    · simp [countWhite, List.filter_cons, hwhite]
    · simp only [countWhite, List.filter_cons]
      by_cases hw : c i = some Color.WHITE
      · simp [hw]
      · simpa [countWhite, hw] using ih hmem

theorem visitNeighbors_total {g : String → Option (List String)}
    {ids : List String} {f : Nat}
    (Hih : ∀ c node, Dom ids c → node ∈ ids → c node = some Color.WHITE →
      countWhite ids c < f → ∃ r, has_cycle g f c node = some r) :
    ∀ (rest : List String) (c : ColorMap) (node : String),
      Dom ids c → (∀ t ∈ rest, t ∈ ids) → countWhite ids c < f →
      ∃ r, visitNeighbors (has_cycle g f) c node rest = some r := by
  intro rest
  induction rest with
  | nil =>
    intro c node _ _ _
    exact ⟨_, rfl⟩
  | cons neighbor rest ihrest =>
    intro c node hdom hsub hcount
    have hnmem : neighbor ∈ ids := hsub neighbor (List.mem_cons_self _ _)
    have hisome : (c neighbor).isSome = true := (hdom neighbor).mpr hnmem
    obtain ⟨col, hcn⟩ := Option.isSome_iff_exists.mp hisome
    rw [visitNeighbors, hcn]
    cases col with
    | GRAY => exact ⟨_, rfl⟩
    | BLACK =>
      exact ihrest c node hdom (fun t ht => hsub t (List.mem_cons_of_mem _ ht))
        hcount
    | WHITE =>
      obtain ⟨⟨b2, c2⟩, hrec⟩ := Hih c neighbor hdom hnmem hcn hcount
      rw [hrec]
      cases b2 with
      | true => exact ⟨_, rfl⟩
      | false =>
        obtain ⟨S1, S2, S3, S4, S5, S6⟩ := has_cycle_shape f c neighbor false c2 hrec
        have hdom2 : Dom ids c2 := by
          intro v
          rw [S5 v]
          constructor
          · rintro (h1 | rfl)
            · exact (hdom v).mp h1
            · exact hnmem
          · intro h1
            exact Or.inl ((hdom v).mpr h1)
        have hblack : c2 neighbor = some Color.BLACK := S4 rfl
        have hcount2 : countWhite ids c2 < countWhite ids c := by
          refine countWhite_lt S1 hcn ?_ ids hnmem
          rw [hblack]
          simp
        exact ihrest c2 node hdom2
          (fun t ht => hsub t (List.mem_cons_of_mem _ ht))
          (lt_trans hcount2 hcount)

theorem has_cycle_total {g : String → Option (List String)}
    {ids : List String}
    (hgdom : ∀ v, (g v).isSome = true ↔ v ∈ ids)
    (hgclosed : ∀ v l, g v = some l → ∀ t ∈ l, t ∈ ids) :
    ∀ (fuel : Nat) (c : ColorMap) (node : String),
      Dom ids c → node ∈ ids → c node = some Color.WHITE →
      countWhite ids c < fuel → ∃ r, has_cycle g fuel c node = some r := by
  intro fuel
  induction fuel with
  | zero =>
    intro c node hdom hmem hwhite hcount
    exact absurd hcount (by omega)
  | succ f ih =>
    intro c node hdom hmem hwhite hcount
    have hg : (g node).isSome = true := (hgdom node).mpr hmem
    obtain ⟨neighbors, hgn⟩ := Option.isSome_iff_exists.mp hg
    rw [has_cycle, hgn]
    set c1 := updateColor c node Color.GRAY with hc1
    have hdom1 : Dom ids c1 := by
      intro v
      by_cases hvn : v = node
      · subst hvn
        rw [hc1, updateColor_same]
        simpa using hmem
      · rw [hc1, updateColor_other _ _ _ hvn]
        exact hdom v
    have hsub1 : ∀ v, c1 v = some Color.WHITE → c v = some Color.WHITE := by
      intro v hv
      by_cases hvn : v = node
      · subst hvn
        rw [hc1, updateColor_same] at hv
        cases hv
      · rwa [hc1, updateColor_other _ _ _ hvn] at hv
    have hcount1 : countWhite ids c1 < countWhite ids c := by
      refine countWhite_lt hsub1 hwhite ?_ ids hmem
      rw [hc1, updateColor_same]
      simp
    exact visitNeighbors_total ih neighbors c1 node hdom1
      (fun t ht => hgclosed node neighbors hgn t ht) (by omega)

/-! ### Soundness: a `True` return exhibits a cycle -/

theorem visitNeighbors_sound {g : String → Option (List String)} {f : Nat}
    (Hih : ∀ c node c', has_cycle g f c node = some (true, c') →
      (∀ v, c v = some Color.GRAY →
        Relation.ReflTransGen (succRel g) v node) →
      ∃ z, Relation.TransGen (succRel g) z z) :
    ∀ (rest : List String) (c : ColorMap) (node : String) (c' : ColorMap),
      visitNeighbors (has_cycle g f) c node rest = some (true, c') →
      (∀ v, c v = some Color.GRAY →
        Relation.ReflTransGen (succRel g) v node) →
      (∀ t ∈ rest, succRel g node t) →
      ∃ z, Relation.TransGen (succRel g) z z := by
  intro rest
  induction rest with
  | nil =>
    intro c node c' h _ _
    simp only [visitNeighbors, Option.some.injEq, Prod.mk.injEq] at h
    exact absurd h.1 (by simp)
  | cons neighbor rest ihrest =>
    intro c node c' h hgp hsucc
    have hstep : succRel g node neighbor :=
      hsucc neighbor (List.mem_cons_self _ _)
    cases hcn : c neighbor with
    | none =>
      rw [visitNeighbors, hcn] at h
      cases h
    | some col =>
      cases col with
      | GRAY =>
        exact ⟨neighbor,
          Relation.TransGen.tail' (hgp neighbor hcn) hstep⟩
      | BLACK =>
        rw [visitNeighbors, hcn] at h
        exact ihrest c node c' h hgp
          (fun t ht => hsucc t (List.mem_cons_of_mem _ ht))
      | WHITE =>
        cases hrec : has_cycle g f c neighbor with
        | none =>
          rw [visitNeighbors, hcn, hrec] at h
          cases h
        | some r =>
          obtain ⟨b2, c2⟩ := r
          cases b2 with
          | true =>
            refine Hih c neighbor c2 hrec ?_
            intro v hv
            exact Relation.ReflTransGen.tail (hgp v hv) hstep
          | false =>
            rw [visitNeighbors, hcn, hrec] at h
            obtain ⟨S1, S2, S3, S4, S5, S6⟩ :=
              has_cycle_shape f c neighbor false c2 hrec
            refine ihrest c2 node c' h ?_
              (fun t ht => hsucc t (List.mem_cons_of_mem _ ht))
            intro v hv
            have hvne : v ≠ neighbor := by
              intro hEq
              rw [hEq, S4 rfl] at hv
              cases hv
            exact hgp v (S6 rfl v hvne hv)

theorem has_cycle_sound {g : String → Option (List String)} :
    ∀ (fuel : Nat) (c : ColorMap) (node : String) (c' : ColorMap),
      has_cycle g fuel c node = some (true, c') →
      (∀ v, c v = some Color.GRAY →
        Relation.ReflTransGen (succRel g) v node) →
      ∃ z, Relation.TransGen (succRel g) z z := by
  intro fuel
  induction fuel with
  | zero =>
    intro c node c' h _
    cases h
  | succ f ih =>
    intro c node c' h hgp
    cases hg : g node with
    | none =>
      rw [has_cycle, hg] at h
      cases h
    | some neighbors =>
      rw [has_cycle, hg] at h
      refine visitNeighbors_sound (fun c0 n0 c0' hc0 hgp0 => ih c0 n0 c0' hc0 hgp0)
        neighbors (updateColor c node Color.GRAY) node c' h ?_
        (fun t ht => ⟨neighbors, hg, ht⟩)
      intro v hv
      by_cases hvn : v = node
      · subst hvn
        exact Relation.ReflTransGen.refl
      · rw [updateColor_other _ _ _ hvn] at hv
        exact hgp v hv

/-! ### Completeness: a `False` return keeps the black invariant -/

/-- Black nodes are closed under successors, and no black node lies on a
cycle. -/
def BlackInv (g : String → Option (List String)) (c : ColorMap) : Prop :=
  (∀ u v, c u = some Color.BLACK → succRel g u v →
    c v = some Color.BLACK) ∧
  (∀ u, c u = some Color.BLACK → ¬ Relation.TransGen (succRel g) u u)

theorem visitNeighbors_complete {g : String → Option (List String)} {f : Nat}
    (Hih : ∀ c node c', has_cycle g f c node = some (false, c') →
      c node = some Color.WHITE → BlackInv g c → BlackInv g c') :
    ∀ (rest : List String) (c : ColorMap) (node : String) (c' : ColorMap),
      visitNeighbors (has_cycle g f) c node rest = some (false, c') →
      c node = some Color.GRAY → BlackInv g c →
      (∀ t, succRel g node t → t ∈ rest ∨ c t = some Color.BLACK) →
      BlackInv g c' := by
  intro rest
  induction rest with
  | nil =>
    intro c node c' h hgray hbi hsucc
    simp only [visitNeighbors, Option.some.injEq, Prod.mk.injEq] at h
    obtain ⟨-, hc⟩ := h
    subst hc
    obtain ⟨hbc, hba⟩ := hbi
    have hsuccb : ∀ t, succRel g node t → c t = some Color.BLACK := by
      intro t ht
      rcases hsucc t ht with h1 | h1
      · cases h1
      · exact h1
    constructor
    · intro u v hu hstep
      by_cases hvn : v = node
      · subst hvn
        exact updateColor_same _ _ _
      · rw [updateColor_other _ _ _ hvn]
        by_cases hun : u = node
        · subst hun
          exact hsuccb v hstep
        · rw [updateColor_other _ _ _ hun] at hu
          exact hbc u v hu hstep
    · intro u hu hcyc
      by_cases hun : u = node
      · subst hun
        obtain ⟨t, hstep, hrtg⟩ := Relation.TransGen.head'_iff.mp hcyc
        have htb : c t = some Color.BLACK := hsuccb t hstep
        have hnb : c u = some Color.BLACK :=
          reflTransGen_black hbc hrtg htb
        rw [hgray] at hnb
        cases hnb
      · rw [updateColor_other _ _ _ hun] at hu
        exact hba u hu hcyc
  | cons neighbor rest ihrest =>
    intro c node c' h hgray hbi hsucc
    cases hcn : c neighbor with
    | none =>
      rw [visitNeighbors, hcn] at h
      cases h
    | some col =>
      cases col with
      | GRAY =>
        rw [visitNeighbors, hcn] at h
        simp only [Option.some.injEq, Prod.mk.injEq] at h
        exact absurd h.1 (by simp)
      | BLACK =>
        rw [visitNeighbors, hcn] at h
        refine ihrest c node c' h hgray hbi ?_
        intro t ht
        rcases hsucc t ht with h1 | h1
        · rcases List.mem_cons.mp h1 with rfl | h2
          · exact Or.inr hcn
          · exact Or.inl h2
        · exact Or.inr h1
      | WHITE =>
        have hnn : node ≠ neighbor := by
          intro hEq
          rw [hEq, hcn] at hgray
          cases hgray
        cases hrec : has_cycle g f c neighbor with
        | none =>
          rw [visitNeighbors, hcn, hrec] at h
          cases h
        | some r =>
          obtain ⟨b2, c2⟩ := r
          cases b2 with
          | true =>
            rw [visitNeighbors, hcn, hrec] at h
            simp only [Option.some.injEq, Prod.mk.injEq] at h
            exact absurd h.1 (by simp)
          | false =>
            rw [visitNeighbors, hcn, hrec] at h
            obtain ⟨S1, S2, S3, S4, S5, S6⟩ :=
              has_cycle_shape f c neighbor false c2 hrec
            have hc2gray : c2 node = some Color.GRAY := by
              have hnode : c2 node = c node := S2 node hnn (by rw [hgray]; simp)
              rw [hnode, hgray]
            refine ihrest c2 node c' h hc2gray (Hih c neighbor c2 hrec hcn hbi) ?_
            intro t ht
            rcases hsucc t ht with h1 | h1
            · rcases List.mem_cons.mp h1 with rfl | h2
              · exact Or.inr (S4 rfl)
              · exact Or.inl h2
            · have htne : t ≠ neighbor := by
                intro hEq
                rw [hEq, hcn] at h1
                cases h1
              refine Or.inr ?_
              rw [S2 t htne (by rw [h1]; simp)]
              exact h1

theorem has_cycle_complete {g : String → Option (List String)} :
    ∀ (fuel : Nat) (c : ColorMap) (node : String) (c' : ColorMap),
      has_cycle g fuel c node = some (false, c') →
      c node = some Color.WHITE → BlackInv g c → BlackInv g c' := by
  intro fuel
  induction fuel with
  | zero =>
    intro c node c' h _ _
    cases h
  | succ f ih =>
    intro c node c' h hwhite hbi
    cases hg : g node with
    | none =>
      rw [has_cycle, hg] at h
      cases h
    | some neighbors =>
      rw [has_cycle, hg] at h
      obtain ⟨hbc, hba⟩ := hbi
      have hbi1 : BlackInv g (updateColor c node Color.GRAY) := by
        constructor
        · intro u v hu hstep
          by_cases hun : u = node
          · subst hun
            rw [updateColor_same] at hu
            cases hu
          · rw [updateColor_other _ _ _ hun] at hu
            have hv : c v = some Color.BLACK := hbc u v hu hstep
            by_cases hvn : v = node
            · subst hvn
              rw [hwhite] at hv
              cases hv
            · rw [updateColor_other _ _ _ hvn]
              exact hv
        · intro u hu
          by_cases hun : u = node
          · subst hun
            rw [updateColor_same] at hu
            cases hu
          · rw [updateColor_other _ _ _ hun] at hu
            exact hba u hu
      refine visitNeighbors_complete
        (fun c0 n0 c0' hc0 hw0 hb0 => ih c0 n0 c0' hc0 hw0 hb0)
        neighbors (updateColor c node Color.GRAY) node c' h
        (updateColor_same _ _ _) hbi1 ?_
      rintro t ⟨l, hgl, htl⟩
      rw [hg] at hgl
      cases Option.some.inj hgl
      exact Or.inl htl

/-! ### The outer loop -/

/-- No gray node exists (invariant between outer-loop iterations). -/
def NoGray (c : ColorMap) : Prop := ∀ v, c v ≠ some Color.GRAY

theorem outerLoop_total {g : String → Option (List String)}
    {ids : List String}
    (hgdom : ∀ v, (g v).isSome = true ↔ v ∈ ids)
    (hgclosed : ∀ v l, g v = some l → ∀ t ∈ l, t ∈ ids) :
    ∀ (l : List String) (c : ColorMap),
      Dom ids c → (∀ v ∈ l, v ∈ ids) →
      ∃ b, outerLoop g (ids.length + 1) c l = some b := by
  intro l
  induction l with
  | nil =>
    intro c _ _
    exact ⟨true, rfl⟩
  | cons node_id rest ihrest =>
    intro c hdom hsub
    have hmem : node_id ∈ ids := hsub _ (List.mem_cons_self _ _)
    obtain ⟨col, hcol⟩ := Option.isSome_iff_exists.mp ((hdom node_id).mpr hmem)
    cases col with
    | WHITE =>
      have hcount : countWhite ids c < ids.length + 1 :=
        Nat.lt_succ_of_le (countWhite_le ids c)
      obtain ⟨⟨b2, c2⟩, hrec⟩ :=
        has_cycle_total hgdom hgclosed (ids.length + 1) c node_id hdom hmem
          hcol hcount
      rw [outerLoop, hcol, hrec]
      cases b2 with
      | true => exact ⟨false, rfl⟩
      | false =>
        obtain ⟨S1, S2, S3, S4, S5, S6⟩ :=
          has_cycle_shape _ c node_id false c2 hrec
        have hdom2 : Dom ids c2 := by
          intro v
          rw [S5 v]
          constructor
          · rintro (h1 | rfl)
            · exact (hdom v).mp h1
            · exact hmem
          · intro h1
            exact Or.inl ((hdom v).mpr h1)
        exact ihrest c2 hdom2 (fun v hv => hsub v (List.mem_cons_of_mem _ hv))
    | GRAY =>
      rw [outerLoop, hcol]
      exact ihrest c hdom (fun v hv => hsub v (List.mem_cons_of_mem _ hv))
    | BLACK =>
      rw [outerLoop, hcol]
      exact ihrest c hdom (fun v hv => hsub v (List.mem_cons_of_mem _ hv))

theorem outerLoop_sound {g : String → Option (List String)} :
    ∀ (fuel : Nat) (l : List String) (c : ColorMap),
      outerLoop g fuel c l = some false → NoGray c →
      ∃ z, Relation.TransGen (succRel g) z z := by
  intro fuel l
  induction l with
  | nil =>
    intro c h _
    simp only [outerLoop, Option.some.injEq] at h
    exact absurd h (by simp)
  | cons node_id rest ihrest =>
    intro c h hng
    cases hcol : c node_id with
    | none =>
      rw [outerLoop, hcol] at h
      cases h
    | some col =>
      cases col with
      | GRAY => exact absurd hcol (hng node_id)
      | BLACK =>
        rw [outerLoop, hcol] at h
        exact ihrest c h hng
      | WHITE =>
        cases hrec : has_cycle g fuel c node_id with
        | none =>
          rw [outerLoop, hcol, hrec] at h
          cases h
        | some r =>
          obtain ⟨b2, c2⟩ := r
          cases b2 with
          | true =>
            exact has_cycle_sound fuel c node_id c2 hrec
              (fun v hv => absurd hv (hng v))
          | false =>
            rw [outerLoop, hcol, hrec] at h
            obtain ⟨S1, S2, S3, S4, S5, S6⟩ :=
              has_cycle_shape fuel c node_id false c2 hrec
            refine ihrest c2 h ?_
            intro v hv
            by_cases hvn : v = node_id
            · subst hvn
              rw [S4 rfl] at hv
              cases hv
            · exact hng v (S6 rfl v hvn hv)

theorem outerLoop_complete {g : String → Option (List String)}
    {ids : List String}
    (hgdom : ∀ v, (g v).isSome = true ↔ v ∈ ids) :
    ∀ (fuel : Nat) (l : List String) (c : ColorMap),
      outerLoop g fuel c l = some true →
      Dom ids c → NoGray c → BlackInv g c →
      (∀ v ∈ ids, v ∈ l ∨ c v = some Color.BLACK) →
      ∀ z, ¬ Relation.TransGen (succRel g) z z := by
  intro fuel l
  induction l with
  | nil =>
    intro c _ hdom _ hbi hcover z hz
    obtain ⟨t, hstep, _⟩ := Relation.TransGen.head'_iff.mp hz
    obtain ⟨lz, hgz, _⟩ := hstep
    have hzmem : z ∈ ids := (hgdom z).mp (by rw [hgz]; rfl)
    rcases hcover z hzmem with h1 | h1
    · cases h1
    · exact hbi.2 z h1 hz
  | cons node_id rest ihrest =>
    intro c h hdom hng hbi hcover
    cases hcol : c node_id with
    | none =>
      rw [outerLoop, hcol] at h
      cases h
    | some col =>
      cases col with
      | GRAY => exact absurd hcol (hng node_id)
      | BLACK =>
        rw [outerLoop, hcol] at h
        refine ihrest c h hdom hng hbi ?_
        intro v hv
        rcases hcover v hv with h1 | h1
        · rcases List.mem_cons.mp h1 with rfl | h2
          · exact Or.inr hcol
          · exact Or.inl h2
        · exact Or.inr h1
      | WHITE =>
        cases hrec : has_cycle g fuel c node_id with
        | none =>
          rw [outerLoop, hcol, hrec] at h
          cases h
        | some r =>
          obtain ⟨b2, c2⟩ := r
          cases b2 with
          | true =>
            rw [outerLoop, hcol, hrec] at h
            exact absurd (Option.some.inj h) (by simp)
          | false =>
            rw [outerLoop, hcol, hrec] at h
            obtain ⟨S1, S2, S3, S4, S5, S6⟩ :=
              has_cycle_shape fuel c node_id false c2 hrec
            have hmem : node_id ∈ ids := (hdom node_id).mp (by rw [hcol]; rfl)
            have hdom2 : Dom ids c2 := by
              intro v
              rw [S5 v]
              constructor
              · rintro (h1 | rfl)
                · exact (hdom v).mp h1
                · exact hmem
              · intro h1
                exact Or.inl ((hdom v).mpr h1)
            have hng2 : NoGray c2 := by
              intro v hv
              by_cases hvn : v = node_id
              · subst hvn
                rw [S4 rfl] at hv
                cases hv
              · exact hng v (S6 rfl v hvn hv)
            have hbi2 : BlackInv g c2 :=
              has_cycle_complete fuel c node_id c2 hrec hcol hbi
            refine ihrest c2 h hdom2 hng2 hbi2 ?_
            intro v hv
            rcases hcover v hv with h1 | h1
            · rcases List.mem_cons.mp h1 with rfl | h2
              · exact Or.inr (S4 rfl)
              · exact Or.inl h2
            · refine Or.inr ?_
              have hvne : v ≠ node_id := by
                intro hEq
                rw [hEq, hcol] at h1
                cases h1
              rw [S2 v hvne (by rw [h1]; simp)]
              exact h1

/-! ### The assembled traversal -/

theorem run_dfs_eq (nodes : List NodeRec) (edges : List EdgeRec) :
    run_dfs nodes edges =
      outerLoop (graphFun (node_ids nodes) edges)
        ((node_ids nodes).length + 1)
        (fun v =>
          if (node_ids nodes).contains v then some Color.WHITE else none)
        (node_ids nodes) := rfl

theorem initColor_dom (ids : List String) :
    Dom ids (fun v => if ids.contains v then some Color.WHITE else none) := by
  intro v
  by_cases h : v ∈ ids
  · have hc : ids.contains v = true := List.elem_iff.mpr h
    simp [hc, h]
  · have hc : ids.contains v = false := by
      rw [← Bool.not_eq_true]
      intro hc
      exact h (List.elem_iff.mp hc)
    simp [hc, h]

theorem initColor_noGray (ids : List String) :
    NoGray (fun v => if ids.contains v then some Color.WHITE else none) := by
  intro v
  by_cases h : ids.contains v = true <;> simp [h]

theorem initColor_blackInv (g : String → Option (List String))
    (ids : List String) :
    BlackInv g (fun v => if ids.contains v then some Color.WHITE else none) := by
  constructor
  · intro u v hu _
    by_cases h : ids.contains u = true <;> simp [h] at hu
  · intro u hu
    by_cases h : ids.contains u = true <;> simp [h] at hu

theorem graphFun_closed (ids : List String) (edges : List EdgeRec) :
    ∀ v l, graphFun ids edges v = some l → ∀ t ∈ l, t ∈ ids := by
  intro v l hvl t ht
  rw [graphFun_eq] at hvl
  by_cases hv : v ∈ ids
  · rw [if_pos hv] at hvl
    cases Option.some.inj hvl
    exact (validPairs_mem_ids (mem_adjTargets.mp ht)).2
  · rw [if_neg hv] at hvl
    cases hvl

theorem run_dfs_isSome (nodes : List NodeRec) (edges : List EdgeRec) :
    ∃ b, run_dfs nodes edges = some b := by
  rw [run_dfs_eq]
  exact outerLoop_total (fun v => graphFun_isSome _ _ v)
    (graphFun_closed _ _) (node_ids nodes) _ (initColor_dom _)
    (fun v hv => hv)

theorem succRel_eq_EdgeOf (nodes : List NodeRec) (edges : List EdgeRec) :
    succRel (graphFun (node_ids nodes) edges) = EdgeOf nodes edges := by
  funext u v
  exact propext (succRel_graphFun (node_ids nodes) edges u v)

theorem run_dfs_true_iff (nodes : List NodeRec) (edges : List EdgeRec) :
    run_dfs nodes edges = some true ↔
      ¬ ∃ z, Relation.TransGen (EdgeOf nodes edges) z z := by
  constructor
  · intro h
    rintro ⟨z, hz⟩
    rw [← succRel_eq_EdgeOf nodes edges] at hz
    rw [run_dfs_eq] at h
    exact outerLoop_complete (fun v => graphFun_isSome _ _ v) _ _ _ h
      (initColor_dom _) (initColor_noGray _) (initColor_blackInv _ _)
      (fun v hv => Or.inl hv) z hz
  · intro h
    obtain ⟨b, hb⟩ := run_dfs_isSome nodes edges
    cases b with
    | true => exact hb
    | false =>
      exfalso
      rw [run_dfs_eq] at hb
      obtain ⟨z, hz⟩ := outerLoop_sound _ _ _ hb (initColor_noGray _)
      rw [succRel_eq_EdgeOf nodes edges] at hz
      exact h ⟨z, hz⟩

theorem run_dfs_false_iff (nodes : List NodeRec) (edges : List EdgeRec) :
    run_dfs nodes edges = some false ↔
      ∃ z, Relation.TransGen (EdgeOf nodes edges) z z := by
  constructor
  · intro h
    by_contra hnc
    have h2 := (run_dfs_true_iff nodes edges).mpr hnc
    rw [h] at h2
    exact Bool.noConfusion (Option.some.inj h2)
  · intro hcyc
    obtain ⟨b, hb⟩ := run_dfs_isSome nodes edges
    cases b with
    | false => exact hb
    | true => exact absurd hcyc ((run_dfs_true_iff nodes edges).mp hb)

/-! ### Helpers for the claim theorems -/

theorem check_isSome (nodes : List NodeRec) (edges : List EdgeRec) :
    ∃ r, check_is_dag_raw nodes edges = some r := by
  by_cases he : edges.isEmpty = true
  · exact ⟨true, by rw [check_is_dag_raw, if_pos he]⟩
  · obtain ⟨b, hb⟩ := run_dfs_isSome nodes edges
    exact ⟨b, by rw [check_is_dag_raw, if_neg he]; exact hb⟩

theorem check_eq_run {nodes : List NodeRec} {edges : List EdgeRec}
    (h : edges.isEmpty = false) :
    check_is_dag_raw nodes edges = run_dfs nodes edges := by
  rw [check_is_dag_raw, h]
  simp

theorem validPairs_nil_ids (edges : List EdgeRec) :
    validPairs [] edges = [] := by
  induction edges with
  | nil => rfl
  | cons e rest ih =>
    have hnone : edgeValid [] e = none := by
      cases hs : e.source with
      | none => simp [edgeValid, hs]
      | some s =>
        cases ht : e.target with
        | none => simp [edgeValid, hs, ht]
        | some t => simp [edgeValid, hs, ht, List.contains]
    rw [validPairs, List.filterMap_cons, hnone]
    exact ih

theorem filterMap_filter_eq {α β : Type} (p : α → Bool) (f : α → Option β)
    (h : ∀ a, p a = false → f a = none) :
    ∀ l : List α, (l.filter p).filterMap f = l.filterMap f := by
  intro l
  induction l with
  | nil => rfl
  | cons a t ih =>
    cases hp : p a with
    | true =>
      simp [List.filter_cons, hp, List.filterMap_cons, ih]
    | false =>
      simp [List.filter_cons, hp, List.filterMap_cons, h a hp, ih]

theorem EdgeOf_dup (nodes : List NodeRec) (l1 l2 : List EdgeRec)
    (e : EdgeRec) :
    EdgeOf nodes (l1 ++ e :: e :: l2) = EdgeOf nodes (l1 ++ e :: l2) := by
  funext u v
  apply propext
  simp only [EdgeOf, validPairs, List.filterMap_append, List.filterMap_cons]
  cases h : edgeValid (node_ids nodes) e with
  | none => exact Iff.rfl
  | some p =>
    simp only [List.mem_append, List.mem_cons]
    tauto

theorem contains_congr {l1 l2 : List String}
    (h : ∀ a, a ∈ l1 ↔ a ∈ l2) (a : String) :
    l1.contains a = l2.contains a := by
  by_cases hm : a ∈ l1
  · have e1 : l1.contains a = true := List.elem_iff.mpr hm
    have e2 : l2.contains a = true := List.elem_iff.mpr ((h a).mp hm)
    rw [e1, e2]
  · have e1 : l1.contains a = false := by
      rw [← Bool.not_eq_true]
      intro hc
      exact hm (List.elem_iff.mp hc)
    have e2 : l2.contains a = false := by
      rw [← Bool.not_eq_true]
      intro hc
      exact hm ((h a).mpr (List.elem_iff.mp hc))
    rw [e1, e2]

theorem edgeValid_congr {ids1 ids2 : List String}
    (h : ∀ a, a ∈ ids1 ↔ a ∈ ids2) (e : EdgeRec) :
    edgeValid ids1 e = edgeValid ids2 e := by
  cases hs : e.source with
  | none => simp [edgeValid, hs]
  | some s =>
    cases ht : e.target with
    | none => simp [edgeValid, hs, ht]
    | some t =>
      simp only [edgeValid, hs, ht]
      rw [contains_congr h s, contains_congr h t]

theorem validPairs_congr {ids1 ids2 : List String}
    (h : ∀ a, a ∈ ids1 ↔ a ∈ ids2) (edges : List EdgeRec) :
    validPairs ids1 edges = validPairs ids2 edges := by
  induction edges with
  | nil => rfl
  | cons e rest ih =>
    rw [validPairs, validPairs, List.filterMap_cons, List.filterMap_cons,
      edgeValid_congr h e]
    cases edgeValid ids2 e with
    | none => exact ih
    | some p =>
      rw [show List.filterMap (edgeValid ids1) rest
        = List.filterMap (edgeValid ids2) rest from ih]

theorem node_ids_reverse_mem (nodes : List NodeRec) (s : String) :
    s ∈ node_ids nodes.reverse ↔ s ∈ node_ids nodes := by
  rw [mem_node_ids, mem_node_ids]
  simp [List.mem_reverse]

theorem EdgeOf_reverse_nodes (nodes : List NodeRec) (edges : List EdgeRec) :
    EdgeOf nodes.reverse edges = EdgeOf nodes edges := by
  funext u v
  apply propext
  simp only [EdgeOf]
  rw [validPairs_congr (node_ids_reverse_mem nodes) edges]

theorem EdgeOf_reverse_edges (nodes : List NodeRec) (edges : List EdgeRec) :
    EdgeOf nodes edges.reverse = EdgeOf nodes edges := by
  funext u v
  apply propext
  simp only [EdgeOf, validPairs]
  rw [List.filterMap_reverse]
  exact List.mem_reverse

theorem isEmpty_reverse (l : List EdgeRec) : l.reverse.isEmpty = l.isEmpty := by
  cases hl : l.isEmpty with
  | true =>
    have hnil : l = [] := List.isEmpty_iff.mp hl
    subst hnil
    rfl
  | false =>
    cases l with
    | nil => cases hl
    | cons a t =>
      cases hr : (a :: t).reverse with
      | nil =>
        have h2 := congrArg List.reverse hr
        simp at h2
      | cons b u => rfl

theorem appendEdge_entries_closed {ids : List String} {s t : String}
    (ht : t ∈ ids) :
    ∀ graph : List (String × List String),
      (∀ p ∈ graph, ∀ x ∈ p.2, x ∈ ids) →
      ∀ p ∈ appendEdge graph s t, ∀ x ∈ p.2, x ∈ ids := by
  intro graph
  induction graph with
  | nil =>
    intro _ p hp
    cases hp
  | cons q rest ih =>
    obtain ⟨k, l⟩ := q
    intro hinv p hp x hx
    have hinv_rest : ∀ p ∈ rest, ∀ x ∈ p.2, x ∈ ids :=
      fun p hp => hinv p (List.mem_cons_of_mem _ hp)
    by_cases hk : k = s
    · rw [appendEdge, if_pos hk] at hp
      rcases List.mem_cons.mp hp with rfl | hp2
      · rcases List.mem_append.mp hx with h1 | h1
        · exact hinv (k, l) (List.mem_cons_self _ _) x h1
        · rcases List.mem_singleton.mp h1 with rfl
          exact ht
      · exact ih hinv_rest p hp2 x hx
    · rw [appendEdge, if_neg hk] at hp
      rcases List.mem_cons.mp hp with rfl | hp2
      · exact hinv (k, l) (List.mem_cons_self _ _) x hx
      · exact ih hinv_rest p hp2 x hx

theorem addEdges_entries_closed {ids : List String} (edges : List EdgeRec) :
    ∀ graph : List (String × List String),
      (∀ w, (List.lookup w graph).isSome = ids.contains w) →
      (∀ p ∈ graph, ∀ x ∈ p.2, x ∈ ids) →
      ∀ p ∈ addEdges graph edges, ∀ x ∈ p.2, x ∈ ids := by
  induction edges with
  | nil =>
    intro graph _ hinv
    exact hinv
  | cons e rest ih =>
    intro graph hk hinv
    cases hs : e.source with
    | none =>
      have hstep : addEdges graph (e :: rest) = addEdges graph rest := by
        simp [addEdges, hs]
      rw [hstep]
      exact ih graph hk hinv
    | some s =>
      cases hte : e.target with
      | none =>
        have hstep : addEdges graph (e :: rest) = addEdges graph rest := by
          simp [addEdges, hs, hte]
        rw [hstep]
        exact ih graph hk hinv
      | some t =>
        by_cases hcond : (!s.isEmpty && !t.isEmpty
            && (List.lookup s graph).isSome
            && (List.lookup t graph).isSome) = true
        · have hstep : addEdges graph (e :: rest) =
              addEdges (appendEdge graph s t) rest := by
            simp [addEdges, hs, hte, hcond]
          rw [hstep]
          have htin : t ∈ ids := by
            have h1 : (List.lookup t graph).isSome = true := by
              revert hcond
              cases (List.lookup t graph).isSome <;> simp
            rw [hk t] at h1
            exact List.elem_iff.mp h1
          refine ih (appendEdge graph s t) ?_
            (appendEdge_entries_closed htin graph hinv)
          intro w
          rw [lookup_isSome_appendEdge, hk]
        · have hcfalse : (!s.isEmpty && !t.isEmpty
              && (List.lookup s graph).isSome
              && (List.lookup t graph).isSome) = false := by
            revert hcond
            cases (!s.isEmpty && !t.isEmpty && (List.lookup s graph).isSome
              && (List.lookup t graph).isSome) <;> simp
          have hstep : addEdges graph (e :: rest) = addEdges graph rest := by
            simp [addEdges, hs, hte, hcfalse]
          rw [hstep]
          exact ih graph hk hinv

theorem lookup_emptyAdj_isSome (ids : List String) :
    ∀ w, (List.lookup w (emptyAdj ids)).isSome = ids.contains w := by
  intro w
  rw [lookup_emptyAdj]
  by_cases h : w ∈ ids
  · have hc : ids.contains w = true := List.elem_iff.mpr h
    simp [h, hc]
  · have hc : ids.contains w = false := by
      rw [← Bool.not_eq_true]
      intro hx
      exact h (List.elem_iff.mp hx)
    simp [h, hc]

theorem run_dfs_eq_of_rel_eq {nodes1 nodes2 : List NodeRec}
    {edges1 edges2 : List EdgeRec}
    (h : EdgeOf nodes1 edges1 = EdgeOf nodes2 edges2) :
    run_dfs nodes1 edges1 = run_dfs nodes2 edges2 := by
  obtain ⟨b1, hb1⟩ := run_dfs_isSome nodes1 edges1
  obtain ⟨b2, hb2⟩ := run_dfs_isSome nodes2 edges2
  have hiff : run_dfs nodes1 edges1 = some true ↔
      run_dfs nodes2 edges2 = some true := by
    rw [run_dfs_true_iff, run_dfs_true_iff, h]
  cases b1 with
  | true => rw [hb1, hiff.mp hb1]
  | false =>
    cases b2 with
    | true =>
      have h2 := hiff.mpr hb2
      rw [hb1] at h2
      exact absurd (Option.some.inj h2) (by simp)
    | false => rw [hb1, hb2]

/-! ### The claims -/

/-- Claim C1: for every input, the `is_dag` answer of the analyzer is `True`
exactly when the directed graph whose vertices are the valid
(truthy-id, deduplicated) node identifiers and whose edges are the valid
`(source, target)` pairs contains no directed cycle. -/
theorem C1_is_dag_iff_acyclic (nodes : List NodeRec) (edges : List EdgeRec) :
    check_is_dag_raw nodes edges = some true ↔
      ¬ ∃ z, Relation.TransGen (EdgeOf nodes edges) z z := by
  cases he : edges.isEmpty with
  | true =>
    have hnil : edges = [] := List.isEmpty_iff.mp he
    subst hnil
    have hchk : check_is_dag_raw nodes [] = some true := rfl
    rw [hchk]
    constructor
    · intro _
      rintro ⟨z, hz⟩
      exact transGen_empty_rel (fun a b hab => List.not_mem_nil _ hab) hz
    · intro _
      rfl
  | false =>
    rw [check_eq_run he]
    exact run_dfs_true_iff nodes edges

/-- Claim C2: for every decodable body, the returned `num_nodes` and
`num_edges` are the lengths of the raw node and edge lists, counting
invalid records as well as valid ones. -/
theorem C2_counts_are_raw_lengths (b : RawBody) :
    (parse_pipeline (some b)).numNodes = some b.nodesList.length ∧
      (parse_pipeline (some b)).numEdges = some b.edgesList.length := by
  obtain ⟨r, hr⟩ := check_isSome b.nodesList b.edgesList
  have hpp : parse_pipeline (some b) =
      Response.result ⟨b.nodesList.length, b.edgesList.length, r⟩ := by
    simp only [parse_pipeline, hr]
  rw [hpp]
  exact ⟨rfl, rfl⟩

/-- Claim C3 concerns a defect in the code: on a decode failure the
handler returns the two-element tuple `({"error": ...}, 400)`, which the
transport layer serializes as a 200-equivalent success-shaped response
(per spec §9), not as a 4xx-equivalent client error.  This theorem
evaluates the handler at the failing input and records the resulting
status. -/
theorem C3_decode_error_tuple_status_200 :
    parse_pipeline none = Response.errorTuple "json decode error" 400 ∧
      httpStatus (parse_pipeline none) = 200 :=
  ⟨rfl, rfl⟩

/-- Claim C4: with an empty raw edge list the analyzer answers `True` for
every node list, and the pre-traversal short-circuit is observably
equivalent to running the general three-color traversal on the same
input. -/
theorem C4_empty_edges_short_circuit_equiv (nodes : List NodeRec) :
    check_is_dag_raw nodes [] = some true ∧
      check_is_dag_general nodes [] = check_is_dag_raw nodes [] := by
  have hgen : check_is_dag_general nodes [] = some true := by
    rw [check_is_dag_general, run_dfs_true_iff]
    rintro ⟨z, hz⟩
    exact transGen_empty_rel (fun a b hab => List.not_mem_nil _ hab) hz
  have hchk : check_is_dag_raw nodes [] = some true := rfl
  exact ⟨hchk, by rw [hgen, hchk]⟩

/-- Claim C5: every input containing a self-loop edge whose identifier is
a valid node id is reported as not a DAG. -/
theorem C5_self_loop_not_dag (nodes : List NodeRec) (edges : List EdgeRec)
    (e : EdgeRec) (s : String) (hmem : e ∈ edges) (hs : e.source = some s)
    (hts : e.target = some s) (hid : s ∈ node_ids nodes) :
    check_is_dag_raw nodes edges = some false := by
  have hne : edges.isEmpty = false := by
    cases edges with
    | nil => cases hmem
    | cons a t => rfl
  rw [check_eq_run hne, run_dfs_false_iff]
  refine ⟨s, Relation.TransGen.single ?_⟩
  have hsne : s.isEmpty = false := (mem_node_ids.mp hid).1
  exact List.mem_filterMap.mpr
    ⟨e, hmem, edgeValid_eq_some.mpr ⟨hs, hts, hsne, hsne, hid, hid⟩⟩

/-- Witness for C5: the concrete self-loop input from spec §8 scenario 3
is reported as not a DAG. -/
theorem C5_self_loop_not_dag_witness :
    check_is_dag_raw [⟨some "a"⟩] [⟨some "a", some "a"⟩] = some false :=
  C5_self_loop_not_dag [⟨some "a"⟩] [⟨some "a", some "a"⟩]
    ⟨some "a", some "a"⟩ "a" (List.mem_singleton.mpr rfl) rfl rfl (by decide)

/-- Claim C6: with an empty node list the result has `num_nodes = 0` and
`is_dag = True` regardless of the edge list (every edge references an
unknown node and is dropped from adjacency). -/
theorem C6_empty_nodes (edges : List EdgeRec) :
    check_is_dag_raw [] edges = some true ∧
      (parse_pipeline (some ⟨some [], some edges⟩)).numNodes = some 0 ∧
      (parse_pipeline (some ⟨some [], some edges⟩)).isDag = some true := by
  have hrel : ∀ a b : String, ¬ EdgeOf [] edges a b := by
    intro a b hab
    have hab2 : (a, b) ∈ validPairs [] edges := hab
    rw [validPairs_nil_ids] at hab2
    cases hab2
  have hchk : check_is_dag_raw [] edges = some true := by
    cases he : edges.isEmpty with
    | true => rw [check_is_dag_raw, if_pos he]
    | false =>
      rw [check_eq_run he, run_dfs_true_iff]
      rintro ⟨z, hz⟩
      exact transGen_empty_rel hrel hz
  have hpp : parse_pipeline (some ⟨some [], some edges⟩) =
      Response.result ⟨0, edges.length, true⟩ := by
    have hmatch : parse_pipeline (some ⟨some [], some edges⟩) =
        match check_is_dag_raw [] edges with
        | some is_dag => Response.result ⟨0, edges.length, is_dag⟩
        | none => Response.errorTuple "internal error" 400 := rfl
    rw [hmatch, hchk]
  exact ⟨hchk, by rw [hpp]; rfl, by rw [hpp]; rfl⟩

/-- Claim C7: repeating an edge record (a parallel edge with the same
ordered pair) anywhere in the edge list does not change the answer of the
analyzer. -/
theorem C7_parallel_edge_invariant (nodes : List NodeRec)
    (l1 l2 : List EdgeRec) (e : EdgeRec) :
    check_is_dag_raw nodes (l1 ++ e :: e :: l2) =
      check_is_dag_raw nodes (l1 ++ e :: l2) := by
  have h1 : (l1 ++ e :: e :: l2).isEmpty = false := by cases l1 <;> rfl
  have h2 : (l1 ++ e :: l2).isEmpty = false := by cases l1 <;> rfl
  rw [check_eq_run h1, check_eq_run h2]
  exact run_dfs_eq_of_rel_eq (EdgeOf_dup nodes l1 l2 e)

/-- Claim C8: reversing the node list or the edge list does not change
the answer of the analyzer (proved for every input, in particular for all
acyclic graphs). -/
theorem C8_reverse_invariant (nodes : List NodeRec) (edges : List EdgeRec) :
    check_is_dag_raw nodes.reverse edges = check_is_dag_raw nodes edges ∧
      check_is_dag_raw nodes edges.reverse = check_is_dag_raw nodes edges := by
  constructor
  · cases he : edges.isEmpty with
    | true =>
      rw [check_is_dag_raw, check_is_dag_raw, if_pos he, if_pos he]
    | false =>
      rw [check_eq_run he, check_eq_run he]
      exact run_dfs_eq_of_rel_eq (EdgeOf_reverse_nodes nodes edges)
  · cases he : edges.isEmpty with
    | true =>
      have hnil : edges = [] := List.isEmpty_iff.mp he
      subst hnil
      rfl
    | false =>
      have hrev : edges.reverse.isEmpty = false := by
        rw [isEmpty_reverse]
        exact he
      rw [check_eq_run hrev, check_eq_run he]
      exact run_dfs_eq_of_rel_eq (EdgeOf_reverse_edges nodes edges)

/-- Claim C9: the analyzer never fails on malformed records: the whole
computation always returns a result, and malformed records are silently
skipped during graph construction — removing the node records with no
truthy id, or the edge records that fail validation, changes neither the
valid id list nor the valid pair list. -/
theorem C9_never_fails_skips_malformed (nodes : List NodeRec)
    (edges : List EdgeRec) :
    (check_is_dag_raw nodes edges).isSome = true ∧
      node_ids (nodes.filter (fun n => truthy n.id)) = node_ids nodes ∧
      validPairs (node_ids nodes)
          (edges.filter (fun e => (edgeValid (node_ids nodes) e).isSome)) =
        validPairs (node_ids nodes) edges := by
  refine ⟨?_, ?_, ?_⟩
  · obtain ⟨r, hr⟩ := check_isSome nodes edges
    rw [hr]
    rfl
  · rw [node_ids, node_ids]
    congr 1
    apply filterMap_filter_eq
    intro n hn
    rw [hn]
    simp
  · rw [validPairs, validPairs]
    apply filterMap_filter_eq
    intro e he
    cases hev : edgeValid (node_ids nodes) e with
    | none => rfl
    | some p =>
      rw [hev] at he
      simp at he

/-- Claim C10: every identifier in any successor list of the built
adjacency dict is a valid node id — hence a key of the adjacency dict and
of the color dict, whose key sets are both the valid id list — and
consequently the traversal performs every `graph[node]` and
`color[neighbor]` lookup on an existing key and returns a result. -/
theorem C10_adjacency_closed_lookups_ok (nodes : List NodeRec)
    (edges : List EdgeRec) :
    ((addEdges (emptyAdj (node_ids nodes)) edges).all
        (fun p => p.2.all (fun t => (node_ids nodes).contains t))) = true ∧
      (run_dfs nodes edges).isSome = true := by
  constructor
  · rw [List.all_eq_true]
    intro p hp
    rw [List.all_eq_true]
    intro t ht2
    apply List.elem_iff.mpr
    refine addEdges_entries_closed edges (emptyAdj (node_ids nodes))
      (lookup_emptyAdj_isSome (node_ids nodes)) ?_ p hp t ht2
    intro q hq x hx
    obtain ⟨i, _, rfl⟩ := List.mem_map.mp hq
    cases hx
  · obtain ⟨b, hb⟩ := run_dfs_isSome nodes edges
    rw [hb]
    rfl

end PipelineServer
